import Mathlib

/-!
Verification of `src/cache.rs` (egui-video): a shared, lock-protected value
cell (`Arc<Mutex<T>>`) with a per-handle local cache and a per-handle
optional override.

Shallow embedding. A Rust `Cache<T>` handle owns two plain fields
(`cached_value : T`, `override_value : Option T`) and a reference
`raw_value : Arc<Mutex<T>>` to a cell shared by all clones. Here the
handle-local fields become a Lean structure `Cache T`, and the pointee of
`raw_value` is threaded explicitly as a value `shared : T`. The outcome of
`Mutex::try_lock` depends on other threads, so it enters as an explicit
environment input `lockFree : Bool` (`true` = the non-blocking acquisition
succeeds, `false` = contention). `Mutex::lock` is `parking_lot`'s: it never
fails (no poisoning) and always returns the cell, so blocking operations
are total functions. Each operation returns its Rust return value paired
with the updated handle (and, for `set`, the updated cell value).
-/

namespace SharedCache

/-- The handle-local state of `Cache<T>`: `cached_value` and
`override_value`. The shared cell referenced by `raw_value` is passed
separately as an explicit `shared : T` argument to each operation. -/
structure Cache (T : Type) where
  cached_value : T
  override_value : Option T
deriving Repr, DecidableEq

namespace Cache

variable {T : Type}

/-- `Cache::set`: `self.cached_value = value; *self.raw_value.lock() = value`.
Returns the updated handle and the new contents of the shared cell. -/
def set (c : Cache T) (value : T) : Cache T × T :=
  ({ c with cached_value := value }, value)

/-- `Cache::try_update_cache`: on `try_lock` success (`lockFree = true`)
copies the cell into the local cache and returns it as `some`; on
contention returns `none` and leaves the handle untouched. -/
def try_update_cache (c : Cache T) (shared : T) (lockFree : Bool) :
    Option T × Cache T :=
  if lockFree then
    (some shared, { c with cached_value := shared })
  else
    (none, c)

/-- `Cache::get_true`: `self.try_update_cache().unwrap_or(self.cached_value)`.
The `try_update_cache` call runs first (possibly refreshing the cache);
its `Option` result decides whether the fresh or the cached value is
returned. -/
def get_true (c : Cache T) (shared : T) (lockFree : Bool) : T × Cache T :=
  match try_update_cache c shared lockFree with
  | (some new_value, c') => (new_value, c')
  | (none, c') => (c'.cached_value, c')

/-- `Cache::get`: `self.override_value.unwrap_or(self.get_true())`.
Rust's `Option::unwrap_or` takes its default by value, so `get_true` is
evaluated (with its side effect on the local cache) before the override is
consulted; the override only decides which value is returned. -/
def get (c : Cache T) (shared : T) (lockFree : Bool) : T × Cache T :=
  let r := get_true c shared lockFree
  (c.override_value.getD r.1, r.2)

/-- `Cache::update_cache`: `self.cached_value = *self.raw_value.lock()`.
Blocking; with `parking_lot` it always succeeds. -/
def update_cache (c : Cache T) (shared : T) : Cache T :=
  { c with cached_value := shared }

/-- `Cache::get_updated`: `self.update_cache(); self.cached_value`. -/
def get_updated (c : Cache T) (shared : T) : T × Cache T :=
  let c' := update_cache c shared
  (c'.cached_value, c')

/-- `Cache::new`: handle with `cached_value = value`, `override_value = None`,
and a fresh cell holding `value`. Returns the handle and the cell value. -/
def new (value : T) : Cache T × T :=
  ({ cached_value := value, override_value := none }, value)

/-- Spec-side rendering of `get_updated`, following the spec's words:
"equivalent to `update_cache()` followed by returning the now-current
local cache". Compared against the source-side `get_updated`. -/
def get_updated_spec (c : Cache T) (shared : T) : T × Cache T :=
  ((update_cache c shared).cached_value, update_cache c shared)

end Cache

/-- A group of handles sharing one cell: the cell's current contents plus
the list of live handles (clones of one origin). -/
structure Sys (T : Type) where
  shared : T
  handles : List (Cache T)
deriving Repr, DecidableEq

/-- One API call on the group: the operation and the index of the calling
handle. `try_updateOp`, `get_trueOp` and `getOp` carry the environment's
`try_lock` outcome. `cloneOp` is `#[derive(Clone)]` (duplicates the local
fields, shares the cell). `setOverrideOp` is the direct `pub(crate)`
mutation of `override_value`. -/
inductive Op (T : Type) where
  | setOp (i : Nat) (v : T)
  | update_cacheOp (i : Nat)
  | get_updatedOp (i : Nat)
  | try_updateOp (i : Nat) (lockFree : Bool)
  | get_trueOp (i : Nat) (lockFree : Bool)
  | getOp (i : Nat) (lockFree : Bool)
  | cloneOp (i : Nat)
  | setOverrideOp (i : Nat) (ov : Option T)
deriving Repr, DecidableEq

/-- Whether an operation is a `set` call (the only writes to the cell). -/
def Op.isSet {T : Type} : Op T → Bool
  | .setOp _ _ => true
  | _ => false

/-- Execute one call on the group. A call naming an index with no handle
corresponds to no source-level call and leaves the state unchanged. -/
def step {T : Type} (s : Sys T) : Op T → Sys T
  | .setOp i v =>
    match s.handles[i]? with
    | some h =>
      let r := Cache.set h v
      { shared := r.2, handles := s.handles.set i r.1 }
    | none => s
  | .update_cacheOp i =>
    match s.handles[i]? with
    | some h => { s with handles := s.handles.set i (Cache.update_cache h s.shared) }
    | none => s
  | .get_updatedOp i =>
    match s.handles[i]? with
    | some h => { s with handles := s.handles.set i (Cache.get_updated h s.shared).2 }
    | none => s
  | .try_updateOp i lockFree =>
    match s.handles[i]? with
    | some h => { s with handles := s.handles.set i (Cache.try_update_cache h s.shared lockFree).2 }
    | none => s
  | .get_trueOp i lockFree =>
    match s.handles[i]? with
    | some h => { s with handles := s.handles.set i (Cache.get_true h s.shared lockFree).2 }
    | none => s
  | .getOp i lockFree =>
    match s.handles[i]? with
    | some h => { s with handles := s.handles.set i (Cache.get h s.shared lockFree).2 }
    | none => s
  | .cloneOp i =>
    match s.handles[i]? with
    | some h => { s with handles := s.handles ++ [h] }
    | none => s
  | .setOverrideOp i ov =>
    match s.handles[i]? with
    | some h => { s with handles := s.handles.set i { h with override_value := ov } }
    | none => s

/-- Execute a sequence of calls. -/
def run {T : Type} (s : Sys T) (ops : List (Op T)) : Sys T :=
  ops.foldl step s

/-- The group created by `Cache::new(value)`: one handle, cell = `value`. -/
def Sys.init {T : Type} (value : T) : Sys T :=
  { shared := (Cache.new value).2, handles := [(Cache.new value).1] }

/-- The return value handle `j` observes from `get_updated`, if handle `j`
exists in the group. -/
def getUpdatedResult {T : Type} (s : Sys T) (j : Nat) : Option T :=
  (s.handles[j]?).map fun h => (Cache.get_updated h s.shared).1

/-- The return value handle `j` observes from `get_true` under `try_lock`
outcome `lockFree`, if handle `j` exists in the group. -/
def getTrueResult {T : Type} (s : Sys T) (j : Nat) (lockFree : Bool) : Option T :=
  (s.handles[j]?).map fun h => (Cache.get_true h s.shared lockFree).1

/-- The values ever validly written to the cell along a trace: the
construction value followed by the arguments of all `set` calls. -/
def writtenVals {T : Type} (value : T) (ops : List (Op T)) : List T :=
  value :: ops.filterMap fun op =>
    match op with
    | .setOp _ v => some v
    | _ => none

/-- The primitive effects of one `Cache::set` body, in program order. -/
inductive SetStep (T : Type) where
  | writeCache (v : T)
  | lockAcquire
  | writeCell (v : T)
  | lockRelease
deriving Repr, DecidableEq

/-- The trace of `Cache::set(value)` as written in the source:
`self.cached_value = value;` first, then `*self.raw_value.lock() = value`
(acquire the mutex, store into the cell, drop the guard). -/
def setSteps {T : Type} (value : T) : List (SetStep T) :=
  [SetStep.writeCache value, SetStep.lockAcquire,
   SetStep.writeCell value, SetStep.lockRelease]

/-! ## Helper lemmas -/

variable {T : Type}

/-- Replacing a list entry by the value already stored there is a no-op. -/
theorem list_set_eq_self : ∀ (l : List T) (i : Nat) (a : T),
    l[i]? = some a → l.set i a = l
  | [], _, _, h => by simp at h
  | x :: xs, 0, a, h => by simp_all
  | x :: xs, i + 1, a, h => by
    simp only [List.getElem?_cons_succ] at h
    simp [List.set, list_set_eq_self xs i a h]

/-- Operations other than `set` never change the shared cell. -/
theorem shared_step_of_not_isSet (s : Sys T) (op : Op T)
    (h : op.isSet = false) : (step s op).shared = s.shared := by
  cases op with
  | setOp i v => simp [Op.isSet] at h
  | update_cacheOp i => simp only [step]; cases s.handles[i]? <;> rfl
  | get_updatedOp i => simp only [step]; cases s.handles[i]? <;> rfl
  | try_updateOp i lockFree => simp only [step]; cases s.handles[i]? <;> rfl
  | get_trueOp i lockFree => simp only [step]; cases s.handles[i]? <;> rfl
  | getOp i lockFree => simp only [step]; cases s.handles[i]? <;> rfl
  | cloneOp i => simp only [step]; cases s.handles[i]? <;> rfl
  | setOverrideOp i ov => simp only [step]; cases s.handles[i]? <;> rfl

/-- A run containing no `set` call never changes the shared cell. -/
theorem shared_run_of_no_set : ∀ (ops : List (Op T)) (s : Sys T),
    (∀ op ∈ ops, op.isSet = false) → (run s ops).shared = s.shared
  | [], _, _ => rfl
  | op :: ops, s, h => by
    have h1 : op.isSet = false := h op (List.mem_cons_self op ops)
    have h2 : ∀ o ∈ ops, o.isSet = false := fun o ho => h o (List.mem_cons_of_mem op ho)
    calc (run (step s op) ops).shared = (step s op).shared :=
          shared_run_of_no_set ops (step s op) h2
      _ = s.shared := shared_step_of_not_isSet s op h1

/-- A `set` call by an existing handle stores its argument in the cell. -/
theorem shared_step_setOp (s : Sys T) (i : Nat) (v : T)
    (hi : i < s.handles.length) : (step s (Op.setOp i v)).shared = v := by
  have h : s.handles[i]? = some s.handles[i] := List.getElem?_eq_getElem hi
  simp [step, h, Cache.set]

/-- Characterization of one `update_cache` step on the group. -/
theorem step_update_cacheOp_eq (s : Sys T) (i : Nat) (h : Cache T)
    (hmem : s.handles[i]? = some h) :
    step s (Op.update_cacheOp i) =
      { shared := s.shared,
        handles := s.handles.set i (Cache.update_cache h s.shared) } := by
  simp [step, hmem]

/-- The cell/cache invariant used for the written-values claim. -/
def InvW (W : List T) (s : Sys T) : Prop :=
  s.shared ∈ W ∧ ∀ h ∈ s.handles, h.cached_value ∈ W

/-- One step preserves the invariant, provided any value the step writes
is in `W`. -/
theorem invW_step (W : List T) (s : Sys T) (op : Op T)
    (hs : InvW W s) (hop : ∀ i x, op = Op.setOp i x → x ∈ W) :
    InvW W (step s op) := by
  obtain ⟨hsh, hca⟩ := hs
  cases op with
  | setOp i v =>
    have hv : v ∈ W := hop i v rfl
    simp only [step]
    cases hmem : s.handles[i]? with
    | none => exact ⟨hsh, hca⟩
    | some h =>
      refine ⟨hv, fun h' hh' => ?_⟩
      rcases List.mem_or_eq_of_mem_set hh' with hmem' | rfl
      · exact hca h' hmem'
      · exact hv
  | update_cacheOp i =>
    simp only [step]
    cases hmem : s.handles[i]? with
    | none => exact ⟨hsh, hca⟩
    | some h =>
      refine ⟨hsh, fun h' hh' => ?_⟩
      rcases List.mem_or_eq_of_mem_set hh' with hmem' | rfl
      · exact hca h' hmem'
      · exact hsh
  | get_updatedOp i =>
    simp only [step]
    cases hmem : s.handles[i]? with
    | none => exact ⟨hsh, hca⟩
    | some h =>
      refine ⟨hsh, fun h' hh' => ?_⟩
      rcases List.mem_or_eq_of_mem_set hh' with hmem' | rfl
      · exact hca h' hmem'
      · exact hsh
  | try_updateOp i lockFree =>
    simp only [step]
    cases hmem : s.handles[i]? with
    | none => exact ⟨hsh, hca⟩
    | some h =>
      refine ⟨hsh, fun h' hh' => ?_⟩
      rcases List.mem_or_eq_of_mem_set hh' with hmem' | rfl
      · exact hca h' hmem'
      · cases lockFree with
        | false => exact hca h (List.getElem?_mem hmem)
        | true => exact hsh
  | get_trueOp i lockFree =>
    simp only [step]
    cases hmem : s.handles[i]? with
    | none => exact ⟨hsh, hca⟩
    | some h =>
      refine ⟨hsh, fun h' hh' => ?_⟩
      rcases List.mem_or_eq_of_mem_set hh' with hmem' | rfl
      · exact hca h' hmem'
      · cases lockFree with
        | false =>
          simpa [Cache.get_true, Cache.try_update_cache] using
            hca h (List.getElem?_mem hmem)
        | true => simpa [Cache.get_true, Cache.try_update_cache] using hsh
  | getOp i lockFree =>
    simp only [step]
    cases hmem : s.handles[i]? with
    | none => exact ⟨hsh, hca⟩
    | some h =>
      refine ⟨hsh, fun h' hh' => ?_⟩
      rcases List.mem_or_eq_of_mem_set hh' with hmem' | rfl
      · exact hca h' hmem'
      · cases lockFree with
        | false =>
          simpa [Cache.get, Cache.get_true, Cache.try_update_cache] using
            hca h (List.getElem?_mem hmem)
        | true =>
          simpa [Cache.get, Cache.get_true, Cache.try_update_cache] using hsh
  | cloneOp i =>
    simp only [step]
    cases hmem : s.handles[i]? with
    | none => exact ⟨hsh, hca⟩
    | some h =>
      refine ⟨hsh, fun h' hh' => ?_⟩
      rcases List.mem_append.mp hh' with hmem' | hmem'
      · exact hca h' hmem'
      · rw [List.mem_singleton.mp hmem']
        exact hca h (List.getElem?_mem hmem)
  | setOverrideOp i ov =>
    simp only [step]
    cases hmem : s.handles[i]? with
    | none => exact ⟨hsh, hca⟩
    | some h =>
      refine ⟨hsh, fun h' hh' => ?_⟩
      rcases List.mem_or_eq_of_mem_set hh' with hmem' | rfl
      · exact hca h' hmem'
      · exact hca h (List.getElem?_mem hmem)

/-- A whole run preserves the invariant, provided every `set` argument in
it is in `W`. -/
theorem invW_run : ∀ (ops : List (Op T)) (s : Sys T) (W : List T),
    InvW W s → (∀ op ∈ ops, ∀ i x, op = Op.setOp i x → x ∈ W) →
    InvW W (run s ops)
  | [], _, _, hs, _ => hs
  | op :: ops, s, W, hs, h => by
    have h1 : ∀ i x, op = Op.setOp i x → x ∈ W :=
      h op (List.mem_cons_self op ops)
    have h2 : ∀ o ∈ ops, ∀ i x, o = Op.setOp i x → x ∈ W :=
      fun o ho => h o (List.mem_cons_of_mem op ho)
    exact invW_run ops (step s op) W (invW_step W s op hs h1) h2

/-! ## Claim theorems -/

/-- C1: if the handle's override is `some ov`, `get` returns `ov` whatever
the shared cell and local cache hold; if the override is unset, `get`
coincides with `get_true`; and `get_true` ignores the override, returning
the shared cell's value when the try-lock succeeds and the local cached
value otherwise. -/
theorem get_respects_override (c : Cache T) (shared : T) (lockFree : Bool)
    (ov : T) :
    (c.override_value = some ov → (Cache.get c shared lockFree).1 = ov) ∧
    (c.override_value = none →
      Cache.get c shared lockFree = Cache.get_true c shared lockFree) ∧
    (Cache.get_true c shared lockFree).1 =
      if lockFree then shared else c.cached_value := by
  refine ⟨fun h => ?_, fun h => ?_, ?_⟩
  · cases lockFree <;> simp [Cache.get, Cache.get_true, Cache.try_update_cache, h]
  · cases lockFree <;> simp [Cache.get, Cache.get_true, Cache.try_update_cache, h]
  · cases lockFree <;> simp [Cache.get_true, Cache.try_update_cache]

/-- Witness for C1 at a concrete handle. -/
theorem get_respects_override_witness :
    (Cache.get (⟨3, some 5⟩ : Cache Nat) 7 true).1 = 5 ∧
    Cache.get (⟨3, none⟩ : Cache Nat) 7 false =
      Cache.get_true (⟨3, none⟩ : Cache Nat) 7 false ∧
    (Cache.get_true (⟨3, some 5⟩ : Cache Nat) 7 true).1 =
      if true then 7 else 3 :=
  ⟨(get_respects_override ⟨3, some 5⟩ 7 true 5).1 rfl,
   (get_respects_override ⟨3, none⟩ 7 false 5).2.1 rfl,
   (get_respects_override ⟨3, some 5⟩ 7 true 5).2.2⟩

/-- C2: `try_update_cache` under contention returns `none` and mutates
nothing — the handle (cache and override) is returned unchanged and the
group state, shared cell included, is fixed by the step; on success it
returns `some` of the cell's value and stores that value in the local
cache, leaving the override alone. -/
theorem try_update_cache_contention_no_mutation (c : Cache T) (shared : T)
    (s : Sys T) (i : Nat) :
    (Cache.try_update_cache c shared false = (none, c) ∧
      step s (Op.try_updateOp i false) = s) ∧
    (Cache.try_update_cache c shared true).1 = some shared ∧
    (Cache.try_update_cache c shared true).2.cached_value = shared ∧
    (Cache.try_update_cache c shared true).2.override_value =
      c.override_value := by
  refine ⟨⟨rfl, ?_⟩, rfl, rfl, rfl⟩
  cases hmem : s.handles[i]? with
  | none => simp [step, hmem]
  | some h =>
    have h3 : s.handles.set i (Cache.try_update_cache h s.shared false).2 =
        s.handles :=
      list_set_eq_self s.handles i h hmem
    simp [step, hmem, h3]

/-- C5: `new(v)` yields a handle with local cache `v` and no override, a
cell holding `v`, and a first `get` on that handle returns `v` under any
try-lock outcome. -/
theorem new_initial_state (v : T) (lockFree : Bool) :
    (Cache.new v).1.cached_value = v ∧
    (Cache.new v).1.override_value = none ∧
    (Cache.new v).2 = v ∧
    (Cache.get (Cache.new v).1 (Cache.new v).2 lockFree).1 = v := by
  refine ⟨rfl, rfl, rfl, ?_⟩
  cases lockFree <;>
    simp [Cache.new, Cache.get, Cache.get_true, Cache.try_update_cache]

/-- C8: `get_updated` is equivalent — same return value and same final
handle state — to `update_cache` followed by returning the now-current
local cache (the spec-side rendering `get_updated_spec`). -/
theorem get_updated_matches_spec (c : Cache T) (shared : T) :
    Cache.get_updated c shared = Cache.get_updated_spec c shared := rfl

/-- C9: `update_cache` is idempotent — with no intervening `set`, a second
call leaves the local cache (and, at group level, the whole state)
exactly as the first left it. -/
theorem update_cache_idempotent (c : Cache T) (shared : T) (s : Sys T)
    (i : Nat) :
    Cache.update_cache (Cache.update_cache c shared) shared =
      Cache.update_cache c shared ∧
    step (step s (Op.update_cacheOp i)) (Op.update_cacheOp i) =
      step s (Op.update_cacheOp i) := by
  refine ⟨rfl, ?_⟩
  cases hmem : s.handles[i]? with
  | none =>
    have h1 : step s (Op.update_cacheOp i) = s := by simp [step, hmem]
    rw [h1]
    exact h1
  | some h =>
    have hlen : i < s.handles.length := by
      rcases List.getElem?_eq_some.mp hmem with ⟨hl, _⟩
      exact hl
    have h2 : (s.handles.set i (Cache.update_cache h s.shared))[i]? =
        some (Cache.update_cache h s.shared) := by
      simp [List.getElem?_set, hlen]
    rw [step_update_cacheOp_eq s i h hmem,
        step_update_cacheOp_eq _ i (Cache.update_cache h s.shared) h2]
    simp [List.set_set, Cache.update_cache]

/-- C10: with an override set, `get` still runs `get_true` (Rust's
`Option::unwrap_or` evaluates its argument eagerly), so a successful
try-lock during `get` refreshes the local cache from the cell even though
the returned value is the override; the handle `get` leaves behind is
always the one `get_true` leaves behind. -/
theorem get_override_still_updates_cache (c : Cache T) (shared : T) (ov : T)
    (hov : c.override_value = some ov) :
    (Cache.get c shared true).1 = ov ∧
    (Cache.get c shared true).2.cached_value = shared ∧
    ∀ lockFree, (Cache.get c shared lockFree).2 =
      (Cache.get_true c shared lockFree).2 := by
  refine ⟨?_, ?_, fun lockFree => ?_⟩
  · simp [Cache.get, Cache.get_true, Cache.try_update_cache, hov]
  · simp [Cache.get, Cache.get_true, Cache.try_update_cache]
  · cases lockFree <;> simp [Cache.get, Cache.get_true, Cache.try_update_cache]

/-- C3: after one handle calls `set(v2)` on the group, with no further
`set` from any handle, any other handle's `get_updated` returns `v2`. -/
theorem set_then_get_updated_fresh (s : Sys T) (i j : Nat) (v2 : T)
    (ops : List (Op T)) (hi : i < s.handles.length)
    (hops : ∀ op ∈ ops, op.isSet = false)
    (hj : j < (run (step s (Op.setOp i v2)) ops).handles.length) :
    getUpdatedResult (run (step s (Op.setOp i v2)) ops) j = some v2 := by
  have hsh : (run (step s (Op.setOp i v2)) ops).shared = v2 := by
    rw [shared_run_of_no_set ops _ hops, shared_step_setOp s i v2 hi]
  unfold getUpdatedResult
  rw [List.getElem?_eq_getElem hj]
  simp [Cache.get_updated, Cache.update_cache, hsh]

/-- Witness for C3: two handles on one cell, `set 2` through handle 0,
an intervening clone, then `get_updated` through handle 1. -/
theorem set_then_get_updated_fresh_witness :
    getUpdatedResult (run (step (⟨1, [⟨1, none⟩, ⟨1, none⟩]⟩ : Sys Nat)
      (Op.setOp 0 2)) [Op.cloneOp 0]) 1 = some 2 :=
  set_then_get_updated_fresh ⟨1, [⟨1, none⟩, ⟨1, none⟩]⟩ 0 1 2 [Op.cloneOp 0]
    (by decide) (by decide) (by decide)

/-- C4 as stated is false on the code: in the body of `Cache::set` the
cell write does not precede the local cache write — the source assigns
`self.cached_value` first and only then locks and stores into the cell. -/
theorem set_cell_before_cache_false :
    ¬ ((setSteps (0 : Nat)).indexOf (SetStep.writeCell 0) <
       (setSteps 0).indexOf (SetStep.writeCache 0)) := by decide

/-- C4 (amended): `set(v)` first updates the calling handle's local cache
to `v` and then acquires the lock and writes `v` into the shared cell;
after it returns, the cell and the calling handle's local cache both
equal `v`, and absent any later `set` the cell still holds `v` (the most
recent value written). -/
theorem set_semantics [DecidableEq T] (s : Sys T) (i : Nat) (v : T)
    (ops : List (Op T)) (hi : i < s.handles.length)
    (hops : ∀ op ∈ ops, op.isSet = false) :
    ((setSteps v).indexOf (SetStep.writeCache v) <
       (setSteps v).indexOf (SetStep.lockAcquire : SetStep T) ∧
     (setSteps v).indexOf (SetStep.lockAcquire : SetStep T) <
       (setSteps v).indexOf (SetStep.writeCell v)) ∧
    (step s (Op.setOp i v)).shared = v ∧
    ((step s (Op.setOp i v)).handles[i]?).map Cache.cached_value = some v ∧
    (run (step s (Op.setOp i v)) ops).shared = v := by
  refine ⟨⟨?_, ?_⟩, shared_step_setOp s i v hi, ?_, ?_⟩
  · simp [setSteps, List.indexOf_cons]
  · simp [setSteps, List.indexOf_cons]
  · have hmem : s.handles[i]? = some s.handles[i] := List.getElem?_eq_getElem hi
    simp [step, hmem, Cache.set, List.getElem?_set, hi]
  · rw [shared_run_of_no_set ops _ hops, shared_step_setOp s i v hi]

/-- Witness for C4 (amended) at a one-handle group. -/
theorem set_semantics_witness :
    ((setSteps (2 : Nat)).indexOf (SetStep.writeCache 2) <
       (setSteps 2).indexOf (SetStep.lockAcquire : SetStep Nat) ∧
     (setSteps (2 : Nat)).indexOf (SetStep.lockAcquire : SetStep Nat) <
       (setSteps 2).indexOf (SetStep.writeCell 2)) ∧
    (step (⟨1, [⟨1, none⟩]⟩ : Sys Nat) (Op.setOp 0 2)).shared = 2 ∧
    ((step (⟨1, [⟨1, none⟩]⟩ : Sys Nat) (Op.setOp 0 2)).handles[0]?).map
      Cache.cached_value = some 2 ∧
    (run (step (⟨1, [⟨1, none⟩]⟩ : Sys Nat) (Op.setOp 0 2)) []).shared = 2 :=
  set_semantics ⟨1, [⟨1, none⟩]⟩ 0 2 [] (by decide) (by decide)

/-- C6: along any trace of API calls from `new(v)`, the shared cell and
every handle's local cache hold only values from `writtenVals` — the
construction value and the arguments of `set` calls so far — and hence
`get_true` can only return such a value. -/
theorem get_true_only_written_values (v : T) (ops : List (Op T)) :
    (run (Sys.init v) ops).shared ∈ writtenVals v ops ∧
    (∀ h ∈ (run (Sys.init v) ops).handles,
      h.cached_value ∈ writtenVals v ops) ∧
    ∀ j lockFree r,
      getTrueResult (run (Sys.init v) ops) j lockFree = some r →
      r ∈ writtenVals v ops := by
  have hinit : InvW (writtenVals v ops) (Sys.init v) := by
    refine ⟨List.mem_cons_self _ _, fun h hh => ?_⟩
    rw [List.mem_singleton.mp hh]
    exact List.mem_cons_self _ _
  have hops : ∀ op ∈ ops, ∀ i x, op = Op.setOp i x → x ∈ writtenVals v ops := by
    intro op hop i x hx
    subst hx
    exact List.mem_cons_of_mem _ (List.mem_filterMap.mpr ⟨_, hop, rfl⟩)
  obtain ⟨hsh, hca⟩ := invW_run ops (Sys.init v) (writtenVals v ops) hinit hops
  refine ⟨hsh, hca, fun j lockFree r hr => ?_⟩
  unfold getTrueResult at hr
  rcases Option.map_eq_some'.mp hr with ⟨h, hh, hval⟩
  have hmem := List.getElem?_mem hh
  cases lockFree with
  | false =>
    have hv : (Cache.get_true h (run (Sys.init v) ops).shared false).1 =
        h.cached_value := rfl
    rw [hv] at hval
    rw [← hval]
    exact hca h hmem
  | true =>
    have hv : (Cache.get_true h (run (Sys.init v) ops).shared true).1 =
        (run (Sys.init v) ops).shared := rfl
    rw [hv] at hval
    rw [← hval]
    exact hsh

/-- Witness for C6: after `new(1)` and `set(2)`, a `get_true` result `2`
is among the written values `[1, 2]`. -/
theorem get_true_only_written_values_witness :
    (2 : Nat) ∈ writtenVals 1 [Op.setOp 0 2] :=
  (get_true_only_written_values 1 [Op.setOp 0 2]).2.2 0 true 2 (by decide)

/-- C7: no operation fails. `try_update_cache` is absent exactly on
contention; `get_true` and `get` always return one of the legitimately
held values (cell, cache, or override); `set`, `update_cache` and
`get_updated` — whose only failure mode would be lock poisoning, which
`parking_lot::Mutex` does not have — are total and always establish
their postconditions. -/
theorem operations_total_no_failure (c : Cache T) (shared v : T)
    (lockFree : Bool) :
    ((Cache.try_update_cache c shared lockFree).1 = none ↔
      lockFree = false) ∧
    ((Cache.get_true c shared lockFree).1 = shared ∨
      (Cache.get_true c shared lockFree).1 = c.cached_value) ∧
    ((Cache.get c shared lockFree).1 = shared ∨
      (Cache.get c shared lockFree).1 = c.cached_value ∨
      c.override_value = some (Cache.get c shared lockFree).1) ∧
    (Cache.set c v).2 = v ∧
    (Cache.set c v).1.cached_value = v ∧
    (Cache.update_cache c shared).cached_value = shared ∧
    (Cache.get_updated c shared).1 = shared := by
  refine ⟨?_, ?_, ?_, rfl, rfl, rfl, rfl⟩
  · cases lockFree <;> simp [Cache.try_update_cache]
  · cases lockFree <;> simp [Cache.get_true, Cache.try_update_cache]
  · cases hov : c.override_value with
    | none =>
      cases lockFree <;>
        simp [Cache.get, Cache.get_true, Cache.try_update_cache, hov]
    | some ov =>
      right; right
      cases lockFree <;>
        simp [Cache.get, Cache.get_true, Cache.try_update_cache, hov]

/-- Witness for C7: the contention direction of the absent-result
equivalence at a concrete handle. -/
theorem operations_total_no_failure_witness :
    (Cache.try_update_cache (⟨3, none⟩ : Cache Nat) 7 false).1 = none :=
  (operations_total_no_failure (⟨3, none⟩ : Cache Nat) 7 9 false).1.mpr rfl

/-- Witness for C10 at a concrete handle with override `5`. -/
theorem get_override_still_updates_cache_witness :
    (Cache.get (⟨3, some 5⟩ : Cache Nat) 7 true).1 = 5 ∧
    (Cache.get (⟨3, some 5⟩ : Cache Nat) 7 true).2.cached_value = 7 ∧
    (Cache.get (⟨3, some 5⟩ : Cache Nat) 7 false).2 =
      (Cache.get_true (⟨3, some 5⟩ : Cache Nat) 7 false).2 :=
  ⟨(get_override_still_updates_cache ⟨3, some 5⟩ 7 5 rfl).1,
   (get_override_still_updates_cache ⟨3, some 5⟩ 7 5 rfl).2.1,
   (get_override_still_updates_cache ⟨3, some 5⟩ 7 5 rfl).2.2 false⟩

end SharedCache
